import Mathlib

/-!
Verification of the aigit dashboard core (TypeScript sources under
`dashboard/src`).  The development shallowly embeds the data model and the
pure functions of `core/selectors.ts`, `core/datasource.ts`, the selection
logic of `components/detail-drawer.ts` and the load flows of
`components/app.ts` / the topbar component.

Modelling conventions:
* JS numbers used as scores are modelled as `ℚ` (exact arithmetic);
  counters are `Nat`; epoch milliseconds are `Int`.
* The host function `Date.parse` is a parameter `parse : String → Option Int`
  (`none` models `NaN`).
* JS string comparison (`<`, `>` on strings) is modelled by the
  lexicographic `strLt` on the character list, which is what the runtime
  does code-unit-wise for the ASCII data handled here; `localeCompare` is
  modelled by the same lexicographic order.
* `Array.prototype.sort(cmp)` is modelled by the comparison sort `sortCmp`
  (a stable insertion sort driven by `cmp _ _ ≤ 0`); the ECMA contract only
  fixes the result for consistent comparators, which is the situation in
  every claim proved below.
* JS `Map` (insertion ordered, string keys) is modelled by an association
  list with first-match lookup.
-/

/-- Lexicographic order on character lists, the model of the JS `<`
comparison on strings. -/
def charListLt : List Char → List Char → Bool
  | [], [] => false
  | [], _ :: _ => true
  | _ :: _, [] => false
  | a :: as, b :: bs => if a < b then true else if b < a then false else charListLt as bs

/-- JS string `a < b`. -/
def strLt (a b : String) : Bool := charListLt a.data b.data

/-- Maximum of two strings under the JS string order; `if a < b then b else a`. -/
def strMax (a b : String) : String := if strLt a b then b else a

/-! ## Data model (`core/types.ts`) -/

/-- Commit metadata of one dashboard entry. -/
structure CommitMeta where
  sha : String
  author_name : String
  author_email : String
  author_date_iso : String
  subject : String
deriving DecidableEq

/-- Aggregate grade of a transcript; `hallucination_flags` may be absent. -/
structure Score where
  total_score : ℚ
  hallucination_flags : Option (List String)
deriving DecidableEq

/-- The parts of a transcript the selectors read. -/
structure Transcript where
  decision : String
  score : Score
deriving DecidableEq

/-- One row of the ingested dataset. -/
structure DashboardEntry where
  commit : CommitMeta
  transcript : Transcript
deriving DecidableEq

/-- Derived per-user statistics row. -/
structure UserRow where
  name : String
  email : String
  passes : Nat
  fails : Nat
  avgScore : ℚ
  lastSeenIso : String
deriving DecidableEq

/-! ## JSON value model and `core/datasource.ts` -/

/-- JSON values as delivered by the host JSON parser. -/
inductive Json where
  | null : Json
  | bool (b : Bool) : Json
  | num (q : ℚ) : Json
  | str (s : String) : Json
  | arr (items : List Json) : Json
  | obj (fields : List (String × Json)) : Json

/-- The JS `isObject` helper of `datasource.ts`: `typeof v === "object" && v !== null`.
Arrays satisfy it, primitives and `null` do not. -/
def isObjectLike : Json → Bool
  | .obj _ => true
  | .arr _ => true
  | _ => false

/-- String-keyed own properties of a JSON value, as seen by the JS `in`
operator and property access; arrays have none. -/
def fieldsOf : Json → List (String × Json)
  | .obj fields => fields
  | _ => []

/-- The JS `key in raw` check. -/
def hasKey (fields : List (String × Json)) (k : String) : Bool :=
  fields.any (fun p => p.1 == k)

/-- Property access `raw[k]`. -/
def getKey (fields : List (String × Json)) (k : String) : Option Json :=
  (fields.find? (fun p => p.1 == k)).map (fun p => p.2)

/-- Test for `Array.isArray`. -/
def isArr : Json → Bool
  | .arr _ => true
  | _ => false

/-- `validateDashboardData` of `core/datasource.ts`; a thrown
`DashboardDataError` is modelled as `Except.error` carrying the message. -/
def validateDashboardData (raw : Json) : Except String Json :=
  if ¬ isObjectLike raw then .error "data.json: expected object"
  else if ¬ hasKey (fieldsOf raw) "schema_version" then .error "data.json: missing schema_version"
  else if ¬ hasKey (fieldsOf raw) "entries" then .error "data.json: missing entries"
  else match getKey (fieldsOf raw) "entries" with
    | some (.arr _) => .ok raw
    | _ => .error "data.json: entries must be an array"

/-- Modelled from the spec: the host pair `JSON.parse ∘ JSON.stringify`
(serialisation of an in-memory value to text in `loadFromFile`'s input and
the parse on line 33 of `datasource.ts`) is the identity on
JSON-representable values; the repository contains no serializer of its
own, so the text stage is modelled as the identity on `Json`. -/
def jsonRoundTrip (v : Json) : Json := v

/-- The parse-and-validate path of `loadFromFile` applied to the
serialisation of an in-memory JSON value. -/
def loadFromFileModel (v : Json) : Except String Json :=
  validateDashboardData (jsonRoundTrip v)

/-- Well-formed `DashboardData` bundle per the spec data model: a keyed
record with `schema_version`, `generated_at`, `repo_id` and an array-valued
`entries` field. -/
def WellFormedData (v : Json) : Prop :=
  ∃ fields, v = Json.obj fields
    ∧ hasKey fields "schema_version" = true
    ∧ hasKey fields "generated_at" = true
    ∧ hasKey fields "repo_id" = true
    ∧ ∃ items, getKey fields "entries" = some (Json.arr items)

/-! ## Sort model for `Array.prototype.sort(cmp)` -/

/-- Insert `x` into `l` before the first element `y` with `cmp x y ≤ 0`. -/
def insertCmp (cmp : α → α → Int) (x : α) : List α → List α
  | [] => [x]
  | y :: ys => if cmp x y ≤ 0 then x :: y :: ys else y :: insertCmp cmp x ys

/-- Stable comparison sort: the model of `Array.prototype.sort(cmp)`.
An element placed before another means the comparator returned `≤ 0` on the
pair (in original order), exactly the ECMA sort contract for consistent
comparators. -/
def sortCmp (cmp : α → α → Int) : List α → List α
  | [] => []
  | x :: xs => insertCmp cmp x (sortCmp cmp xs)

/-! ## `core/selectors.ts` -/

/-- `toMs` of `selectors.ts`: `Date.parse` with non-finite results mapped
to `0`.  `parse` is the host `Date.parse`, `none` standing for `NaN`. -/
def toMs (parse : String → Option Int) (iso : String) : Int :=
  (parse iso).getD 0

/-- The comparator of the `sort` call on lines 33–38 of `selectors.ts`
(`localeCompare` modelled by the lexicographic string order). -/
def userCmp (parse : String → Option Int) (a b : UserRow) : Int :=
  let ta := toMs parse a.lastSeenIso
  let tb := toMs parse b.lastSeenIso
  if tb ≠ ta then tb - ta
  else if strLt a.email b.email then -1 else if strLt b.email a.email then 1 else 0

/-- The fresh `UserRow` built on lines 15–22 of `selectors.ts` for the
first entry of an email. -/
def initRow (e : DashboardEntry) : UserRow :=
  { name := e.commit.author_name
    email := e.commit.author_email
    passes := 0
    fails := 0
    avgScore := 0
    lastSeenIso := e.commit.author_date_iso }

/-- Lines 24–29 of `selectors.ts`: decision tally, running mean and
last-seen update applied to a row for one entry. -/
def updateRow (row : UserRow) (e : DashboardEntry) : UserRow :=
  let row :=
    if e.transcript.decision == "pass" then { row with passes := row.passes + 1 }
    else { row with fails := row.fails + 1 }
  let n : ℚ := ((row.passes + row.fails : Nat) : ℚ)
  let row := { row with
    avgScore := (row.avgScore * (n - 1) + e.transcript.score.total_score) / n }
  if strLt row.lastSeenIso e.commit.author_date_iso then
    { row with lastSeenIso := e.commit.author_date_iso }
  else row

/-- First-match lookup in the association list modelling the JS `Map`. -/
def lookupRow : List (String × UserRow) → String → Option UserRow
  | [], _ => none
  | (k, v) :: rest, em => if k == em then some v else lookupRow rest em

/-- Replace the value stored at a key (append when absent), the JS
`Map.prototype.set`. -/
def setRow : List (String × UserRow) → String → UserRow → List (String × UserRow)
  | [], k, v => [(k, v)]
  | (k', v') :: rest, k, v =>
    if k' == k then (k, v) :: rest else (k', v') :: setRow rest k v

/-- One iteration of the `for` loop of `aggregateUsers`: reuse or seed the
row for the entry's email, apply the per-entry update, store it. -/
def stepUser (m : List (String × UserRow)) (e : DashboardEntry) : List (String × UserRow) :=
  let email := e.commit.author_email
  match lookupRow m email with
  | some row => setRow m email (updateRow row e)
  | none => m ++ [(email, updateRow (initRow e) e)]

/-- The `byEmail` map after the loop of `aggregateUsers`. -/
def usersMap (entries : List DashboardEntry) : List (String × UserRow) :=
  entries.foldl stepUser []

/-- `aggregateUsers` of `selectors.ts`. -/
def aggregateUsers (parse : String → Option Int) (entries : List DashboardEntry) : List UserRow :=
  sortCmp (userCmp parse) ((usersMap entries).map Prod.snd)

/-- The comparator of `entriesForUser` (descending by `author_date_iso`). -/
def dateDescCmp (a b : DashboardEntry) : Int :=
  if strLt a.commit.author_date_iso b.commit.author_date_iso then 1 else -1

/-- `entriesForUser` of `selectors.ts`. -/
def entriesForUser (entries : List DashboardEntry) (email : String) : List DashboardEntry :=
  sortCmp dateDescCmp
    (entries.filter (fun e => e.commit.author_email == email))

/-- Result record of `kpis`. -/
structure Kpis where
  total : Nat
  users : Nat
  pass : Nat
  fail : Nat
  passRate : ℚ
  avgScore : ℚ
  flags : Nat
deriving DecidableEq

/-- `kpis` of `selectors.ts` (`new Set(emails).size` modelled as the length
of the deduplicated email list; the reductions on lines 59–60 as folds). -/
def kpis (entries : List DashboardEntry) : Kpis :=
  let users := (entries.map (fun e => e.commit.author_email)).dedup
  let total := entries.length
  let pass := (entries.filter (fun e => e.transcript.decision == "pass")).length
  let fail := total - pass
  let avgScore : ℚ :=
    if total = 0 then 0
    else (entries.foldl (fun acc e => acc + e.transcript.score.total_score) 0) / (total : ℚ)
  let flags := entries.foldl
    (fun acc e => acc + ((e.transcript.score.hallucination_flags.map List.length).getD 0)) 0
  { total := total
    users := users.length
    pass := pass
    fail := fail
    passRate := if total = 0 then 0 else (pass : ℚ) / (total : ℚ)
    avgScore := avgScore
    flags := flags }

/-- Chart point. -/
structure Point where
  x : Int
  y : ℚ
deriving DecidableEq

/-- The comparator of `timeSeriesAvgScore` (ascending by `author_date_iso`). -/
def dateAscCmp (a b : DashboardEntry) : Int :=
  if strLt a.commit.author_date_iso b.commit.author_date_iso then -1 else 1

/-- `timeSeriesAvgScore` of `selectors.ts`. -/
def timeSeriesAvgScore (parse : String → Option Int) (entries : List DashboardEntry) :
    List Point :=
  (sortCmp dateAscCmp entries).map
    (fun e => { x := toMs parse e.commit.author_date_iso, y := e.transcript.score.total_score })

/-! ## `components/detail-drawer.ts` -/

/-- `DdDetailDrawer.pickSelected` (lines 143–147). -/
def pickSelected (userEntries : List DashboardEntry) (sha : Option String) :
    Option DashboardEntry :=
  if userEntries.isEmpty then none
  else match sha with
    | none => userEntries.head?
    | some s => (userEntries.find? (fun e => e.commit.sha == s)).orElse (fun _ => userEntries.head?)

/-- The transcript list rendered by the drawer: `userEntries.slice(0, 30)`
(line 122). -/
def displayedTranscripts (entries : List DashboardEntry) (email : String) :
    List DashboardEntry :=
  (entriesForUser entries email).take 30

/-! ## Store model and the load flows of `app.ts` / the topbar -/

/-- Load/UI status of the app state. -/
inductive Status where
  | idle | loading | ready | error
deriving DecidableEq

/-- App state fields touched by the load flows. -/
structure AppState where
  status : Status
  error : Option String
  data : Option Json

/-- Modelled from the spec: `core/store.ts` is not under `src/`; §4.2 of
the spec defines `setData(data)` as the patch
`{data, status=ready, error=null}`. -/
def setData (s : AppState) (d : Json) : AppState :=
  { s with data := some d, status := .ready, error := none }

/-- Modelled from the spec: §4.2 defines `setError(message)` as the patch
`{status=error, error=message}`. -/
def setError (s : AppState) (m : String) : AppState :=
  { s with status := .error, error := some m }

/-- The instructional message written by `DdApp.bootstrap` on load failure
(lines 78–81 of `app.ts`). -/
def bootstrapFailureMsg : String :=
  "No ./data.json found. Generate it with: `aigit dashboard export --out dashboard/public/data.json` then serve dashboard/public/."

/-- `DdApp.bootstrap` (lines 71–83 of `app.ts`): set loading, attempt
`loadFromUrl("./data.json")` whose outcome is `result`, and either store
the data or reset to idle with the instructional message. -/
def bootstrap (result : Except String Json) (s : AppState) : AppState :=
  let s := { s with status := .loading, error := none }
  match result with
  | .ok d => setData s d
  | .error _ =>
    let s := { s with status := .idle }
    { s with error := some bootstrapFailureMsg }

/-- The manual file-load handler of the topbar component: set loading, run
`loadFromFile` whose outcome is `result`, store data on success and
`setError` with the error message on failure. -/
def manualFileLoad (result : Except String Json) (s : AppState) : AppState :=
  let s := { s with status := .loading, error := none }
  match result with
  | .ok d => setData s d
  | .error m => setError s m

/-! ## Specification-side derived definitions -/

/-- All entries carrying the given author email, in input order. -/
def emailEntries (entries : List DashboardEntry) (email : String) : List DashboardEntry :=
  entries.filter (fun e => e.commit.author_email == email)

/-- Sum of the total scores of a list of entries. -/
def scoreSum (es : List DashboardEntry) : ℚ :=
  (es.map (fun e => e.transcript.score.total_score)).sum

/-- Greatest `author_date_iso` of a list of entries under the JS string
order, seeded from the first entry. -/
def lastSeenSpec : List DashboardEntry → String
  | [] => ""
  | e :: rest => rest.foldl (fun a x => strMax a x.commit.author_date_iso) e.commit.author_date_iso

/-- The user row `aggregateUsers` should produce for an email whose entry
list (in input order) is `es`. -/
def rowSpec (email : String) (es : List DashboardEntry) : UserRow :=
  { name := ((es.head?).map (fun e => e.commit.author_name)).getD ""
    email := email
    passes := (es.filter (fun e => e.transcript.decision == "pass")).length
    fails := (es.filter (fun e => !(e.transcript.decision == "pass"))).length
    avgScore := if es = [] then 0 else scoreSum es / (es.length : ℚ)
    lastSeenIso := lastSeenSpec es }

/-- Per-entry contribution to the `flags` KPI. -/
def flagCount (e : DashboardEntry) : Nat :=
  (e.transcript.score.hallucination_flags.map List.length).getD 0

/-! ## Concrete sample data for witnesses -/

/-- A model of `Date.parse` for the two sample timestamps. -/
def sampleParse : String → Option Int := fun s =>
  if s = "2024-01-01T00:00:00Z" then some 100
  else if s = "2024-01-02T00:00:00Z" then some 200
  else none

/-- Older sample entry of alice@x.com (sha "aaa", decision "pass"). -/
def entryAliceOld : DashboardEntry :=
  { commit := { sha := "aaa", author_name := "Alice", author_email := "alice@x.com",
                author_date_iso := "2024-01-01T00:00:00Z", subject := "s1" }
    transcript := { decision := "pass",
                    score := { total_score := 0, hallucination_flags := none } } }

/-- Newer sample entry of alice@x.com (sha "bbb", decision "fail", carrying
a different author name). -/
def entryAliceNew : DashboardEntry :=
  { commit := { sha := "bbb", author_name := "Alicia", author_email := "alice@x.com",
                author_date_iso := "2024-01-02T00:00:00Z", subject := "s2" }
    transcript := { decision := "fail",
                    score := { total_score := 0, hallucination_flags := none } } }

/-- The two-entry sample dataset. -/
def sampleEntries : List DashboardEntry := [entryAliceOld, entryAliceNew]

/-- The user row the sample dataset aggregates to. -/
def sampleRow : UserRow :=
  { name := "Alice", email := "alice@x.com", passes := 1, fails := 1, avgScore := 0,
    lastSeenIso := "2024-01-02T00:00:00Z" }

/-! ## Lemmas about the string order -/

theorem charListLt_irrefl (l : List Char) : charListLt l l = false := by
  induction l with
  | nil => rfl
  | cons a as ih => simp [charListLt, lt_irrefl, ih]

theorem charListLt_trans : ∀ {a b c : List Char},
    charListLt a b = true → charListLt b c = true → charListLt a c = true
  | [], _ :: _, _ :: _, _, _ => rfl
  | x :: xs, y :: ys, z :: zs, h1, h2 => by
    simp only [charListLt] at h1 h2 ⊢
    by_cases hxy : x < y
    · by_cases hyz : y < z
      · simp [lt_trans hxy hyz]
      · by_cases hzy : z < y
        · simp [hyz, hzy] at h2
        · have hyz' : y = z := le_antisymm (not_lt.mp hzy) (not_lt.mp hyz)
          subst hyz'
          simp [hxy]
    · by_cases hyx : y < x
      · simp [hxy, hyx] at h1
      · have hxy' : x = y := le_antisymm (not_lt.mp hyx) (not_lt.mp hxy)
        subst hxy'
        simp only [lt_irrefl, if_false] at h1
        by_cases hyz : x < z
        · simp [hyz]
        · by_cases hzy : z < x
          · simp [hyz, hzy] at h2
          · have hyz' : x = z := le_antisymm (not_lt.mp hzy) (not_lt.mp hyz)
            subst hyz'
            simp only [lt_irrefl, if_false] at h2 ⊢
            exact charListLt_trans h1 h2

theorem charListLt_asymm {a b : List Char} (h : charListLt a b = true) :
    charListLt b a = false := by
  by_contra hne
  have hba : charListLt b a = true := by
    cases hab : charListLt b a
    · exact absurd hab hne
    · rfl
  have := charListLt_trans h hba
  rw [charListLt_irrefl] at this
  exact Bool.noConfusion this

theorem charListLt_total : ∀ (a b : List Char),
    a = b ∨ charListLt a b = true ∨ charListLt b a = true
  | [], [] => Or.inl rfl
  | [], _ :: _ => Or.inr (Or.inl rfl)
  | _ :: _, [] => Or.inr (Or.inr rfl)
  | x :: xs, y :: ys => by
    rcases lt_trichotomy x y with hxy | hxy | hxy
    · exact Or.inr (Or.inl (by simp [charListLt, hxy]))
    · subst hxy
      rcases charListLt_total xs ys with h | h | h
      · exact Or.inl (by rw [h])
      · exact Or.inr (Or.inl (by simp [charListLt, lt_irrefl, h]))
      · exact Or.inr (Or.inr (by simp [charListLt, lt_irrefl, h]))
    · exact Or.inr (Or.inr (by simp [charListLt, hxy, lt_asymm hxy]))

theorem charListLt_notLt_trans {a b c : List Char}
    (h1 : charListLt a b = false) (h2 : charListLt b c = false) :
    charListLt a c = false := by
  by_contra hne
  have hac : charListLt a c = true := by
    cases h : charListLt a c
    · exact absurd h hne
    · rfl
  rcases charListLt_total a b with heq | hab | hba
  · subst heq
    rw [hac] at h2
    exact Bool.noConfusion h2
  · rw [hab] at h1
    exact Bool.noConfusion h1
  · have := charListLt_trans hba hac
    rw [this] at h2
    exact Bool.noConfusion h2

theorem strData_inj {a b : String} (h : a.data = b.data) : a = b := by
  cases a
  cases b
  simp only at h
  rw [h]

theorem strLt_irrefl (a : String) : strLt a a = false := charListLt_irrefl a.data

theorem strLt_trans {a b c : String} (h1 : strLt a b = true) (h2 : strLt b c = true) :
    strLt a c = true := charListLt_trans h1 h2

theorem strLt_asymm {a b : String} (h : strLt a b = true) : strLt b a = false :=
  charListLt_asymm h

theorem strLt_total {a b : String} (h : a ≠ b) :
    strLt a b = true ∨ strLt b a = true := by
  rcases charListLt_total a.data b.data with hd | hd | hd
  · exact absurd (strData_inj hd) h
  · exact Or.inl hd
  · exact Or.inr hd

theorem strLt_notLt_trans {a b c : String}
    (h1 : strLt a b = false) (h2 : strLt b c = false) : strLt a c = false :=
  charListLt_notLt_trans h1 h2

theorem strMax_choice (a b : String) : strMax a b = a ∨ strMax a b = b := by
  unfold strMax
  split
  · exact Or.inr rfl
  · exact Or.inl rfl

theorem strLt_strMax_left (a b : String) : strLt (strMax a b) a = false := by
  unfold strMax
  split
  · next h => exact strLt_asymm h
  · exact strLt_irrefl a

theorem strLt_strMax_right (a b : String) : strLt (strMax a b) b = false := by
  unfold strMax
  split
  · exact strLt_irrefl b
  · next h => simpa using h

/-! ## Lemmas about the sort model -/

theorem insertCmp_perm (cmp : α → α → Int) (x : α) (l : List α) :
    (insertCmp cmp x l).Perm (x :: l) := by
  induction l with
  | nil => exact List.Perm.refl _
  | cons y ys ih =>
    simp only [insertCmp]
    split
    · exact List.Perm.refl _
    · exact ((List.perm_cons y).mpr ih).trans (List.Perm.swap x y ys)

theorem sortCmp_perm (cmp : α → α → Int) (l : List α) : (sortCmp cmp l).Perm l := by
  induction l with
  | nil => exact List.Perm.refl _
  | cons x xs ih =>
    exact (insertCmp_perm cmp x (sortCmp cmp xs)).trans ((List.perm_cons x).mpr ih)

theorem mem_sortCmp {cmp : α → α → Int} {a : α} {l : List α} :
    a ∈ sortCmp cmp l ↔ a ∈ l :=
  (sortCmp_perm cmp l).mem_iff

theorem mem_insertCmp {cmp : α → α → Int} {a x : α} {l : List α} :
    a ∈ insertCmp cmp x l ↔ a = x ∨ a ∈ l := by
  rw [(insertCmp_perm cmp x l).mem_iff, List.mem_cons]

theorem pairwise_of_forall {P : α → α → Prop} (h : ∀ a b, P a b) (l : List α) :
    l.Pairwise P := by
  induction l with
  | nil => exact List.Pairwise.nil
  | cons x xs ih => exact List.Pairwise.cons (fun b _ => h x b) ih

theorem insertCmp_pairwise {cmp : α → α → Int}
    (htrans : ∀ a b c, cmp a b ≤ 0 → cmp b c ≤ 0 → cmp a c ≤ 0)
    {x : α} {l : List α}
    (hl : l.Pairwise (fun a b => cmp a b ≤ 0))
    (htot : ∀ y ∈ l, cmp x y ≤ 0 ∨ cmp y x ≤ 0) :
    (insertCmp cmp x l).Pairwise (fun a b => cmp a b ≤ 0) := by
  induction l with
  | nil => simp [insertCmp]
  | cons y ys ih =>
    rw [List.pairwise_cons] at hl
    obtain ⟨hy, hys⟩ := hl
    simp only [insertCmp]
    split
    · next hxy =>
      refine List.Pairwise.cons ?_ (List.Pairwise.cons hy hys)
      intro z hz
      rcases List.mem_cons.mp hz with hz | hz
      · exact hz ▸ hxy
      · exact htrans x y z hxy (hy z hz)
    · next hxy =>
      have hyx : cmp y x ≤ 0 := by
        rcases htot y (List.mem_cons_self y ys) with h | h
        · exact absurd h hxy
        · exact h
      refine List.Pairwise.cons ?_ (ih hys (fun z hz => htot z (List.mem_cons_of_mem y hz)))
      intro z hz
      rcases mem_insertCmp.mp hz with hz | hz
      · exact hz ▸ hyx
      · exact hy z hz

theorem sortCmp_pairwise {cmp : α → α → Int}
    (htrans : ∀ a b c, cmp a b ≤ 0 → cmp b c ≤ 0 → cmp a c ≤ 0)
    {l : List α}
    (htot : l.Pairwise (fun a b => cmp a b ≤ 0 ∨ cmp b a ≤ 0)) :
    (sortCmp cmp l).Pairwise (fun a b => cmp a b ≤ 0) := by
  induction l with
  | nil => exact List.Pairwise.nil
  | cons x xs ih =>
    rw [List.pairwise_cons] at htot
    obtain ⟨hx, hxs⟩ := htot
    exact insertCmp_pairwise htrans (ih hxs)
      (fun y hy => hx y (mem_sortCmp.mp hy))

/-! ## Lemmas about the association-list map -/

theorem lookupRow_eq_none {m : List (String × UserRow)} {em : String} :
    lookupRow m em = none ↔ em ∉ m.map Prod.fst := by
  induction m with
  | nil => simp [lookupRow]
  | cons p rest ih =>
    obtain ⟨k, v⟩ := p
    by_cases hk : k = em
    · subst hk
      simp [lookupRow]
    · simp only [lookupRow, beq_iff_eq, if_neg hk, List.map_cons, List.mem_cons, ih]
      constructor
      · intro h
        intro hc
        rcases hc with hc | hc
        · exact hk hc.symm
        · exact h hc
      · intro h hc
        exact h (Or.inr hc)

theorem lookupRow_mem {m : List (String × UserRow)} {k : String} {v : UserRow}
    (h : lookupRow m k = some v) : (k, v) ∈ m := by
  induction m with
  | nil => simp [lookupRow] at h
  | cons p rest ih =>
    obtain ⟨k', v'⟩ := p
    by_cases hk : k' = k
    · subst hk
      simp only [lookupRow, beq_self_eq_true, if_pos] at h
      rw [List.mem_cons]
      exact Or.inl (by rw [← Option.some_inj.mp h])
    · simp only [lookupRow, beq_iff_eq, if_neg hk] at h
      exact List.mem_cons_of_mem _ (ih h)

theorem lookupRow_of_mem_nodup {m : List (String × UserRow)}
    (hnd : (m.map Prod.fst).Nodup) {k : String} {v : UserRow}
    (h : (k, v) ∈ m) : lookupRow m k = some v := by
  induction m with
  | nil => simp at h
  | cons p rest ih =>
    obtain ⟨k', v'⟩ := p
    rw [List.map_cons, List.nodup_cons] at hnd
    rcases List.mem_cons.mp h with h | h
    · injection h with h1 h2
      subst h1
      subst h2
      simp [lookupRow]
    · by_cases hk : k' = k
      · subst hk
        exact absurd (List.mem_map_of_mem Prod.fst h) hnd.1
      · simp only [lookupRow, beq_iff_eq, if_neg hk]
        exact ih hnd.2 h

theorem lookupRow_setRow (m : List (String × UserRow)) (k : String) (v : UserRow)
    (em : String) :
    lookupRow (setRow m k v) em = if em = k then some v else lookupRow m em := by
  induction m with
  | nil =>
    by_cases h : em = k
    · subst h
      simp [setRow, lookupRow]
    · have h' : ¬ k = em := fun hc => h hc.symm
      simp [setRow, lookupRow, h, h']
  | cons p rest ih =>
    obtain ⟨k', v'⟩ := p
    by_cases hk : k' = k
    · subst hk
      by_cases h : em = k'
      · subst h
        simp [setRow, lookupRow]
      · have h' : ¬ k' = em := fun hc => h hc.symm
        simp [setRow, lookupRow, h, h']
    · by_cases h : em = k'
      · subst h
        simp [setRow, lookupRow, beq_iff_eq, hk]
      · have h' : ¬ k' = em := fun hc => h hc.symm
        simp [setRow, lookupRow, beq_iff_eq, hk, h', ih]

theorem mapFst_setRow {m : List (String × UserRow)} {k : String}
    (h : k ∈ m.map Prod.fst) (v : UserRow) :
    (setRow m k v).map Prod.fst = m.map Prod.fst := by
  induction m with
  | nil => simp at h
  | cons p rest ih =>
    obtain ⟨k', v'⟩ := p
    by_cases hk : k' = k
    · subst hk
      simp [setRow]
    · rw [List.map_cons, List.mem_cons] at h
      rcases h with h | h
    
      · exact absurd h.symm hk
      · simp [setRow, beq_iff_eq, hk, ih h]

theorem lookupRow_append (m m' : List (String × UserRow)) (em : String) :
    lookupRow (m ++ m') em =
      match lookupRow m em with
      | some v => some v
      | none => lookupRow m' em := by
  induction m with
  | nil => simp [lookupRow]
  | cons p rest ih =>
    obtain ⟨k, v⟩ := p
    by_cases hk : k = em
    · subst hk
      simp [lookupRow]
    · simp only [List.cons_append, lookupRow, beq_iff_eq, if_neg hk]
      exact ih

/-! ## Per-row transition lemmas -/

theorem filterSplitLength (p : α → Bool) (l : List α) :
    (l.filter p).length + (l.filter (fun a => !(p a))).length = l.length := by
  induction l with
  | nil => rfl
  | cons a l ih =>
    cases h : p a <;> simp [List.filter_cons, h] <;> omega

theorem runningMean_step (L : ℚ) (hL : L ≠ 0) (S s : ℚ) :
    (S / L * ((L + 1) - 1) + s) / (L + 1) = (S + s) / (L + 1) := by
  have h1 : (L + 1) - 1 = L := by ring
  rw [h1, div_mul_cancel₀ S hL]

theorem rowSpec_single (e : DashboardEntry) :
    updateRow (initRow e) e = rowSpec e.commit.author_email [e] := by
  cases hp : e.transcript.decision == "pass" <;>
    simp [updateRow, initRow, rowSpec, scoreSum, lastSeenSpec, strLt_irrefl, hp,
      List.filter_cons]

theorem emailEntries_append (entries : List DashboardEntry) (e : DashboardEntry)
    (em : String) :
    emailEntries (entries ++ [e]) em =
      emailEntries entries em ++ (if e.commit.author_email == em then [e] else []) := by
  simp only [emailEntries, List.filter_append, List.filter_cons, List.filter_nil]

theorem lastSeenSpec_concat (a : DashboardEntry) (as : List DashboardEntry)
    (e : DashboardEntry) :
    lastSeenSpec (a :: (as ++ [e])) =
      strMax (lastSeenSpec (a :: as)) e.commit.author_date_iso := by
  simp [lastSeenSpec, List.foldl_append]

theorem rowSpec_concat (em : String) (a : DashboardEntry) (as : List DashboardEntry)
    (e : DashboardEntry) :
    rowSpec em (a :: as ++ [e]) = updateRow (rowSpec em (a :: as)) e := by
  have hsplit := filterSplitLength (fun x => x.transcript.decision == "pass") (a :: as)
  simp only [List.length_cons] at hsplit
  have hSsum : scoreSum (a :: (as ++ [e]))
      = scoreSum (a :: as) + e.transcript.score.total_score := by
    simp [scoreSum]
    ring
  have hfilt : ∀ p : DashboardEntry → Bool,
      List.filter p (a :: (as ++ [e])) = List.filter p (a :: as) ++ (if p e then [e] else []) := by
    intro p
    rw [show a :: (as ++ [e]) = (a :: as) ++ [e] from rfl, List.filter_append]
    cases h : p e <;> simp [h]
  have hn1 : ((List.filter (fun x => x.transcript.decision == "pass") (a :: as)).length +
      (((a :: as).filter (fun x => !(x.transcript.decision == "pass"))).length + 1))
      = as.length + 1 + 1 := by omega
  have hn2 : ((List.filter (fun x => x.transcript.decision == "pass") (a :: as)).length + 1 +
      ((a :: as).filter (fun x => !(x.transcript.decision == "pass"))).length)
      = as.length + 1 + 1 := by omega
  cases hp : e.transcript.decision == "pass" <;>
    by_cases hlast : strLt (lastSeenSpec (a :: as)) e.commit.author_date_iso = true <;>
    · simp only [rowSpec, updateRow, hp, List.cons_append, lastSeenSpec_concat, hfilt, hSsum,
        List.length_append, List.length_nil, List.length_cons, List.append_nil, hlast,
        if_true, if_false, Bool.not_true, Bool.not_false, List.head?_cons, Option.map_some,
        Option.getD_some, Bool.false_eq_true, ite_true, ite_false, UserRow.mk.injEq, strMax,
        Nat.add_zero, Nat.zero_add, reduceCtorEq, true_and, and_true, hn1, hn2]
      push_cast
      rw [runningMean_step ((as.length : ℚ) + 1) (by positivity)]

/-! ## The map invariant of `aggregateUsers` -/

theorem usersMap_append (l : List DashboardEntry) (e : DashboardEntry) :
    usersMap (l ++ [e]) = stepUser (usersMap l) e := by
  simp [usersMap, List.foldl_append]

theorem usersMap_spec (entries : List DashboardEntry) :
    ((usersMap entries).map Prod.fst).Nodup ∧
    ∀ em, lookupRow (usersMap entries) em =
      if emailEntries entries em = [] then none
      else some (rowSpec em (emailEntries entries em)) := by
  induction entries using List.reverseRecOn with
  | nil =>
    refine ⟨by simp [usersMap], fun em => ?_⟩
    simp [usersMap, lookupRow, emailEntries]
  | append_singleton l e ih =>
    obtain ⟨hnd, hch⟩ := ih
    by_cases hmem : emailEntries l e.commit.author_email = []
    · have hlook : lookupRow (usersMap l) e.commit.author_email = none := by
        rw [hch, if_pos hmem]
      have hstep : usersMap (l ++ [e])
          = usersMap l ++ [(e.commit.author_email, updateRow (initRow e) e)] := by
        rw [usersMap_append]
        simp [stepUser, hlook]
      have hnotmem : e.commit.author_email ∉ (usersMap l).map Prod.fst :=
        lookupRow_eq_none.mp hlook
      constructor
      · rw [hstep, List.map_append]
        simp only [List.map_cons, List.map_nil]
        rw [List.nodup_append]
        exact ⟨hnd, List.nodup_singleton _, by simp [List.disjoint_singleton, hnotmem]⟩
      · intro em
        rw [hstep, lookupRow_append, emailEntries_append]
        by_cases hekm : em = e.commit.author_email
        · subst hekm
          rw [hlook, hmem]
          simp [lookupRow, rowSpec_single]
        · have hbeq : (e.commit.author_email == em) = false := by
            simp only [beq_eq_false_iff_ne, ne_eq]
            exact fun hc => hekm hc.symm
          simp only [hbeq, Bool.false_eq_true, if_false, List.append_nil]
          rw [← hch em]
          cases hl : lookupRow (usersMap l) em <;> simp [lookupRow, hbeq]
    · have hlook : lookupRow (usersMap l) e.commit.author_email
          = some (rowSpec e.commit.author_email (emailEntries l e.commit.author_email)) := by
        rw [hch, if_neg hmem]
      obtain ⟨b, bs, hbs⟩ := List.exists_cons_of_ne_nil hmem
      have hkmem : e.commit.author_email ∈ (usersMap l).map Prod.fst := by
        by_contra hc
        have := lookupRow_eq_none.mpr hc
        rw [this] at hlook
        exact Option.noConfusion hlook
      have hstep : usersMap (l ++ [e]) = setRow (usersMap l) e.commit.author_email
          (updateRow (rowSpec e.commit.author_email (emailEntries l e.commit.author_email)) e) := by
        rw [usersMap_append]
        simp [stepUser, hlook]
      constructor
      · rw [hstep, mapFst_setRow hkmem]
        exact hnd
      · intro em
        rw [hstep, lookupRow_setRow, emailEntries_append]
        by_cases hekm : em = e.commit.author_email
        · subst hekm
          rw [if_pos rfl, hbs]
          simp only [beq_self_eq_true, if_true, ite_true]
          rw [if_neg (by simp), rowSpec_concat]
        · rw [if_neg hekm]
          have hbeq : (e.commit.author_email == em) = false := by
            simp only [beq_eq_false_iff_ne, ne_eq]
            exact fun hc => hekm hc.symm
          simp only [hbeq, Bool.false_eq_true, if_false, List.append_nil]
          exact hch em

theorem rowSpec_email (em : String) (es : List DashboardEntry) :
    (rowSpec em es).email = em := rfl

theorem mem_usersMap_char {entries : List DashboardEntry} {p : String × UserRow}
    (hp : p ∈ usersMap entries) :
    emailEntries entries p.1 ≠ [] ∧ p.2 = rowSpec p.1 (emailEntries entries p.1) := by
  obtain ⟨hnd, hch⟩ := usersMap_spec entries
  obtain ⟨k, v⟩ := p
  have hl := lookupRow_of_mem_nodup hnd hp
  rw [hch k] at hl
  by_cases hmem : emailEntries entries k = []
  · rw [if_pos hmem] at hl
    exact Option.noConfusion hl
  · rw [if_neg hmem] at hl
    exact ⟨hmem, (Option.some_inj.mp hl).symm⟩

theorem mem_aggregateUsers_iff {parse : String → Option Int}
    {entries : List DashboardEntry} {r : UserRow} :
    r ∈ aggregateUsers parse entries ↔
      ∃ em, emailEntries entries em ≠ [] ∧ r = rowSpec em (emailEntries entries em) := by
  obtain ⟨hnd, hch⟩ := usersMap_spec entries
  rw [aggregateUsers, mem_sortCmp]
  constructor
  · intro h
    obtain ⟨p, hp, hpr⟩ := List.mem_map.mp h
    obtain ⟨hne, hrow⟩ := mem_usersMap_char hp
    exact ⟨p.1, hne, by rw [← hpr, hrow]⟩
  · rintro ⟨em, hne, rfl⟩
    have hl : lookupRow (usersMap entries) em
        = some (rowSpec em (emailEntries entries em)) := by
      rw [hch em, if_neg hne]
    exact List.mem_map.mpr ⟨(em, rowSpec em (emailEntries entries em)), lookupRow_mem hl, rfl⟩

theorem emailEntries_ne_nil_iff {entries : List DashboardEntry} {em : String} :
    emailEntries entries em ≠ [] ↔
      em ∈ entries.map (fun e => e.commit.author_email) := by
  rw [emailEntries]
  constructor
  · intro h
    have : ∃ x ∈ entries, (x.commit.author_email == em) = true := by
      by_contra hc
      push_neg at hc
      exact h (List.filter_eq_nil_iff.mpr (fun a ha => by simp [hc a ha]))
    obtain ⟨x, hx, hbeq⟩ := this
    exact List.mem_map.mpr ⟨x, hx, beq_iff_eq.mp hbeq⟩
  · intro h hc
    obtain ⟨x, hx, hxe⟩ := List.mem_map.mp h
    have : x ∈ List.filter (fun e => e.commit.author_email == em) entries :=
      List.mem_filter.mpr ⟨hx, by simp [hxe]⟩
    rw [hc] at this
    exact List.not_mem_nil x this

theorem aggregateUsers_emails_nodup (parse : String → Option Int)
    (entries : List DashboardEntry) :
    ((aggregateUsers parse entries).map UserRow.email).Nodup := by
  obtain ⟨hnd, hch⟩ := usersMap_spec entries
  have hperm : ((aggregateUsers parse entries).map UserRow.email).Perm
      (((usersMap entries).map Prod.snd).map UserRow.email) :=
    (sortCmp_perm (userCmp parse) ((usersMap entries).map Prod.snd)).map UserRow.email
  have heq : ((usersMap entries).map Prod.snd).map UserRow.email
      = (usersMap entries).map Prod.fst := by
    rw [List.map_map]
    refine List.map_congr_left (fun p hp => ?_)
    obtain ⟨_, hrow⟩ := mem_usersMap_char hp
    simp only [Function.comp_apply, hrow, rowSpec_email]
  rw [hperm.nodup_iff, heq]
  exact hnd

/-! ## Comparator characterizations -/

theorem userCmp_le_iff (parse : String → Option Int) (a b : UserRow) :
    userCmp parse a b ≤ 0 ↔
      (toMs parse b.lastSeenIso < toMs parse a.lastSeenIso ∨
       (toMs parse a.lastSeenIso = toMs parse b.lastSeenIso ∧ strLt b.email a.email = false)) := by
  unfold userCmp
  by_cases h : toMs parse b.lastSeenIso ≠ toMs parse a.lastSeenIso
  · rw [if_pos h]
    constructor
    · intro hle
      exact Or.inl (by omega)
    · rintro (hlt | ⟨heq, _⟩)
      · omega
      · exact absurd heq.symm h
  · rw [if_neg h]
    push_neg at h
    by_cases hab : strLt a.email b.email = true
    · simp only [hab, if_true]
      constructor
      · intro _
        refine Or.inr ⟨h.symm, ?_⟩
        have := strLt_asymm hab
        simp only [this]
      · intro _
        omega
    · simp only [Bool.not_eq_true] at hab
      simp only [hab, Bool.false_eq_true, if_false]
      by_cases hba : strLt b.email a.email = true
      · simp only [hba, if_true]
        constructor
        · intro hc
          omega
        · rintro (hlt | ⟨_, hfalse⟩)
          · omega
          · exact Bool.noConfusion hfalse
      · simp only [Bool.not_eq_true] at hba
        simp only [hba, Bool.false_eq_true, if_false]
        constructor
        · intro _
          exact Or.inr ⟨h.symm, trivial⟩
        · intro _
          omega

theorem userCmp_trans (parse : String → Option Int) (a b c : UserRow)
    (h1 : userCmp parse a b ≤ 0) (h2 : userCmp parse b c ≤ 0) :
    userCmp parse a c ≤ 0 := by
  rw [userCmp_le_iff] at h1 h2 ⊢
  rcases h1 with h1 | ⟨h1e, h1s⟩ <;> rcases h2 with h2 | ⟨h2e, h2s⟩
  · exact Or.inl (lt_trans h2 h1)
  · exact Or.inl (by omega)
  · exact Or.inl (by omega)
  · exact Or.inr ⟨by omega, strLt_notLt_trans h2s h1s⟩

theorem userCmp_total (parse : String → Option Int) (a b : UserRow) :
    userCmp parse a b ≤ 0 ∨ userCmp parse b a ≤ 0 := by
  rw [userCmp_le_iff, userCmp_le_iff]
  by_cases h : toMs parse a.lastSeenIso = toMs parse b.lastSeenIso
  · cases hab : strLt a.email b.email
    · exact Or.inr (Or.inr ⟨h.symm, rfl⟩)
    · exact Or.inl (Or.inr ⟨h, strLt_asymm hab⟩)
  · rcases lt_or_gt_of_ne h with hlt | hlt
    · exact Or.inr (Or.inl hlt)
    · exact Or.inl (Or.inl hlt)

theorem dateDescCmp_le_iff (a b : DashboardEntry) :
    dateDescCmp a b ≤ 0 ↔
      strLt a.commit.author_date_iso b.commit.author_date_iso = false := by
  unfold dateDescCmp
  cases h : strLt a.commit.author_date_iso b.commit.author_date_iso <;> simp [h]

theorem dateDescCmp_trans (a b c : DashboardEntry)
    (h1 : dateDescCmp a b ≤ 0) (h2 : dateDescCmp b c ≤ 0) : dateDescCmp a c ≤ 0 := by
  rw [dateDescCmp_le_iff] at h1 h2 ⊢
  exact strLt_notLt_trans h1 h2

theorem dateDescCmp_total (a b : DashboardEntry) :
    dateDescCmp a b ≤ 0 ∨ dateDescCmp b a ≤ 0 := by
  rw [dateDescCmp_le_iff, dateDescCmp_le_iff]
  cases h : strLt a.commit.author_date_iso b.commit.author_date_iso
  · exact Or.inl rfl
  · exact Or.inr (strLt_asymm h)

theorem dateAscCmp_le_iff (a b : DashboardEntry) :
    dateAscCmp a b ≤ 0 ↔
      strLt a.commit.author_date_iso b.commit.author_date_iso = true := by
  unfold dateAscCmp
  cases h : strLt a.commit.author_date_iso b.commit.author_date_iso <;> simp [h]

theorem dateAscCmp_trans (a b c : DashboardEntry)
    (h1 : dateAscCmp a b ≤ 0) (h2 : dateAscCmp b c ≤ 0) : dateAscCmp a c ≤ 0 := by
  rw [dateAscCmp_le_iff] at h1 h2 ⊢
  exact strLt_trans h1 h2

/-! ## Last-seen maximum lemmas -/

theorem foldl_strMax_mem (l : List String) (init : String) :
    l.foldl strMax init = init ∨ l.foldl strMax init ∈ l := by
  induction l generalizing init with
  | nil => exact Or.inl rfl
  | cons a l ih =>
    rcases ih (strMax init a) with h | h
    · rcases strMax_choice init a with hc | hc
      · exact Or.inl (by rw [List.foldl_cons, h, hc])
      · refine Or.inr ?_
        rw [List.foldl_cons, h, hc]
        exact List.mem_cons_self a l
    · exact Or.inr (List.mem_cons_of_mem _ h)

theorem foldl_strMax_ge (l : List String) (init : String) :
    strLt (l.foldl strMax init) init = false ∧
    ∀ x ∈ l, strLt (l.foldl strMax init) x = false := by
  induction l generalizing init with
  | nil => exact ⟨strLt_irrefl init, by simp⟩
  | cons a l ih =>
    obtain ⟨h1, h2⟩ := ih (strMax init a)
    refine ⟨strLt_notLt_trans h1 (strLt_strMax_left init a), ?_⟩
    intro x hx
    rcases List.mem_cons.mp hx with hx | hx
    · subst hx
      exact strLt_notLt_trans h1 (strLt_strMax_right init x)
    · exact h2 x hx

theorem lastSeenSpec_mem (a : DashboardEntry) (as : List DashboardEntry) :
    lastSeenSpec (a :: as)
      ∈ (a :: as).map (fun e => e.commit.author_date_iso) := by
  have hf : lastSeenSpec (a :: as)
      = (as.map (fun e => e.commit.author_date_iso)).foldl strMax a.commit.author_date_iso := by
    rw [lastSeenSpec, List.foldl_map]
  rw [hf, List.map_cons]
  rcases foldl_strMax_mem (as.map (fun e => e.commit.author_date_iso))
      a.commit.author_date_iso with h | h
  · rw [h]
    exact List.mem_cons_self _ _
  · exact List.mem_cons_of_mem _ h

theorem lastSeenSpec_ub (a : DashboardEntry) (as : List DashboardEntry) :
    ∀ x ∈ a :: as, strLt (lastSeenSpec (a :: as)) x.commit.author_date_iso = false := by
  have hf : lastSeenSpec (a :: as)
      = (as.map (fun e => e.commit.author_date_iso)).foldl strMax a.commit.author_date_iso := by
    rw [lastSeenSpec, List.foldl_map]
  obtain ⟨h1, h2⟩ := foldl_strMax_ge (as.map (fun e => e.commit.author_date_iso))
      a.commit.author_date_iso
  intro x hx
  rcases List.mem_cons.mp hx with hx | hx
  · rw [hf, hx]
    exact h1
  · rw [hf]
    exact h2 _ (List.mem_map_of_mem _ hx)

/-! ## `entriesForUser` support lemmas -/

theorem entriesForUser_eq (entries : List DashboardEntry) (email : String) :
    entriesForUser entries email = sortCmp dateDescCmp (emailEntries entries email) := rfl

theorem entriesForUser_sorted (entries : List DashboardEntry) (email : String) :
    (entriesForUser entries email).Pairwise (fun a b => dateDescCmp a b ≤ 0) :=
  sortCmp_pairwise dateDescCmp_trans (pairwise_of_forall dateDescCmp_total _)

theorem mem_entriesForUser {entries : List DashboardEntry} {email : String}
    {x : DashboardEntry} :
    x ∈ entriesForUser entries email ↔ x ∈ entries ∧ x.commit.author_email = email := by
  rw [entriesForUser_eq, mem_sortCmp, emailEntries, List.mem_filter]
  simp

theorem entriesForUser_ne_nil {entries : List DashboardEntry} {email : String}
    (h : emailEntries entries email ≠ []) : entriesForUser entries email ≠ [] := by
  intro hc
  apply h
  have hlen := (sortCmp_perm dateDescCmp (emailEntries entries email)).length_eq
  rw [entriesForUser_eq] at hc
  rw [hc] at hlen
  exact List.eq_nil_of_length_eq_zero hlen.symm

/-! ## KPI fold lemmas -/

theorem foldl_add_eq {M : Type} [AddCommMonoid M] (f : α → M) (l : List α) (init : M) :
    l.foldl (fun acc a => acc + f a) init = init + (l.map f).sum := by
  induction l generalizing init with
  | nil => simp
  | cons a l ih =>
    rw [List.foldl_cons, ih, List.map_cons, List.sum_cons, add_assoc]

/-! ## Validation support -/

theorem validate_obj_ok {fields : List (String × Json)}
    (h1 : hasKey fields "schema_version" = true)
    (h2 : ∃ items, getKey fields "entries" = some (Json.arr items)) :
    validateDashboardData (Json.obj fields) = .ok (Json.obj fields) := by
  obtain ⟨items, hit⟩ := h2
  have hk2 : hasKey fields "entries" = true := by
    rw [getKey] at hit
    cases hf : fields.find? (fun p => p.1 == "entries") with
    | none =>
      rw [hf] at hit
      exact Option.noConfusion hit
    | some p =>
      rw [hasKey, List.any_eq_true]
      have hps := List.find?_some hf
      exact ⟨p, List.mem_of_find?_eq_some hf, hps⟩
  rw [validateDashboardData]
  rw [if_neg (by simp [isObjectLike]), if_neg (by simp [fieldsOf, h1]),
    if_neg (by simp [fieldsOf, hk2])]
  have : fieldsOf (Json.obj fields) = fields := rfl
  rw [this, hit]

/-- Claim C2: for every entry list, `kpis` returns total = number of entries,
users = number of distinct author emails, pass = number of entries with
decision "pass", fail = total − pass, passRate = pass/total (0 when empty),
avgScore = mean of total_score (0 when empty), flags = sum of
hallucination-flag counts with a missing field contributing 0; and
`kpis []` is all zeroes. -/
theorem claim_C2 (entries : List DashboardEntry) :
    (kpis entries).total = entries.length
    ∧ (kpis entries).users
        = (entries.map (fun e => e.commit.author_email)).toFinset.card
    ∧ (kpis entries).pass
        = (entries.filter (fun e => e.transcript.decision == "pass")).length
    ∧ (kpis entries).pass ≤ entries.length
    ∧ (kpis entries).fail = entries.length - (kpis entries).pass
    ∧ (kpis entries).passRate
        = (if entries.length = 0 then 0
           else ((kpis entries).pass : ℚ) / (entries.length : ℚ))
    ∧ (kpis entries).avgScore
        = (if entries.length = 0 then 0 else scoreSum entries / (entries.length : ℚ))
    ∧ (kpis entries).flags = (entries.map flagCount).sum
    ∧ kpis [] = ⟨0, 0, 0, 0, 0, 0, 0⟩ := by
  refine ⟨rfl, (List.card_toFinset _).symm, rfl, List.length_filter_le _ _, rfl, rfl, ?_, ?_, rfl⟩
  · show (if entries.length = 0 then (0 : ℚ)
        else (entries.foldl (fun acc e => acc + e.transcript.score.total_score) 0)
          / (entries.length : ℚ)) = _
    rw [foldl_add_eq, zero_add]
    rfl
  · show entries.foldl (fun acc e => acc + flagCount e) 0 = _
    rw [foldl_add_eq flagCount, zero_add]

/-- Claim C8: a failed startup bootstrap load leaves status = idle (not
error) with the instructional export-command message, whereas a failed
manual file load sets status = error with the load error text as message. -/
theorem claim_C8 (s : AppState) (reason msg : String) :
    (bootstrap (.error reason) s).status = .idle
    ∧ (bootstrap (.error reason) s).error = some bootstrapFailureMsg
    ∧ (manualFileLoad (.error msg) s).status = .error
    ∧ (manualFileLoad (.error msg) s).error = some msg :=
  ⟨rfl, rfl, rfl, rfl⟩

/-- Claim C4 counterexample: on the input object with the single key `foo`
(the spec's malformed example) the raised error message is
"data.json: missing schema_version" — it is not the message that cites the
missing `entries` field, because `schema_version` is checked first. -/
theorem claim_C4_counterexample :
    validateDashboardData (Json.obj [("foo", Json.num 1)])
        = .error "data.json: missing schema_version"
    ∧ "data.json: missing schema_version" ≠ "data.json: missing entries" :=
  ⟨rfl, by decide⟩

/-- Claim C4 (amended): validation succeeds exactly on a keyed record that
has a `schema_version` key and an array-valued `entries` key (failing with
a `DataSourceError` otherwise), and on the malformed input with the single
key `foo` the error message cites the missing `schema_version` field, which
is checked before `entries`. -/
theorem claim_C4_amended (raw : Json) :
    ((∃ d, validateDashboardData raw = .ok d) ↔
      (∃ fields, raw = Json.obj fields
        ∧ hasKey fields "schema_version" = true
        ∧ ∃ items, getKey fields "entries" = some (Json.arr items)))
    ∧ (∀ d, validateDashboardData raw = .ok d → d = raw)
    ∧ validateDashboardData (Json.obj [("foo", Json.num 1)])
        = .error "data.json: missing schema_version" := by
  refine ⟨⟨?_, ?_⟩, ?_, rfl⟩
  · intro ⟨d, hd⟩
    cases raw with
    | obj fields =>
      refine ⟨fields, rfl, ?_, ?_⟩
      · by_contra h1
        rw [Bool.not_eq_true] at h1
        rw [validateDashboardData, if_neg (by simp [isObjectLike])] at hd
        rw [if_pos (by simp [fieldsOf, h1])] at hd
        exact Except.noConfusion hd
      · by_cases h1 : hasKey fields "schema_version" = true
        · by_cases h2 : hasKey fields "entries" = true
          · rw [validateDashboardData, if_neg (by simp [isObjectLike]),
              if_neg (by simp [fieldsOf, h1]), if_neg (by simp [fieldsOf, h2])] at hd
            cases hg : getKey (fieldsOf (Json.obj fields)) "entries" with
            | none =>
              rw [hg] at hd
              exact Except.noConfusion hd
            | some v =>
              cases v <;> rw [hg] at hd <;>
                first
                | exact Except.noConfusion hd
                | exact ⟨_, hg⟩
          · rw [Bool.not_eq_true] at h2
            rw [validateDashboardData, if_neg (by simp [isObjectLike]),
              if_neg (by simp [fieldsOf, h1]), if_pos (by simp [fieldsOf, h2])] at hd
            exact Except.noConfusion hd
        · rw [Bool.not_eq_true] at h1
          rw [validateDashboardData, if_neg (by simp [isObjectLike]),
            if_pos (by simp [fieldsOf, h1])] at hd
          exact Except.noConfusion hd
    | arr items =>
      rw [validateDashboardData, if_neg (by simp [isObjectLike]),
        if_pos (by simp [fieldsOf, hasKey])] at hd
      exact Except.noConfusion hd
    | null =>
      rw [validateDashboardData, if_pos (by simp [isObjectLike])] at hd
      exact Except.noConfusion hd
    | bool b =>
      rw [validateDashboardData, if_pos (by simp [isObjectLike])] at hd
      exact Except.noConfusion hd
    | num q =>
      rw [validateDashboardData, if_pos (by simp [isObjectLike])] at hd
      exact Except.noConfusion hd
    | str s =>
      rw [validateDashboardData, if_pos (by simp [isObjectLike])] at hd
      exact Except.noConfusion hd
  · rintro ⟨fields, rfl, h1, items, hit⟩
    exact ⟨Json.obj fields, validate_obj_ok h1 ⟨items, hit⟩⟩
  · intro d hd
    cases raw with
    | obj fields =>
      by_cases h1 : hasKey fields "schema_version" = true
      · by_cases h2 : hasKey fields "entries" = true
        · rw [validateDashboardData, if_neg (by simp [isObjectLike]),
            if_neg (by simp [fieldsOf, h1]), if_neg (by simp [fieldsOf, h2])] at hd
          cases hg : getKey (fieldsOf (Json.obj fields)) "entries" with
          | none =>
            rw [hg] at hd
            exact Except.noConfusion hd
          | some v =>
            cases v <;> rw [hg] at hd <;>
              first
              | exact Except.noConfusion hd
              | exact (Except.ok.injEq .. ▸ hd : _) ▸ rfl
        · rw [Bool.not_eq_true] at h2
          rw [validateDashboardData, if_neg (by simp [isObjectLike]),
            if_neg (by simp [fieldsOf, h1]), if_pos (by simp [fieldsOf, h2])] at hd
          exact Except.noConfusion hd
      · rw [Bool.not_eq_true] at h1
        rw [validateDashboardData, if_neg (by simp [isObjectLike]),
          if_pos (by simp [fieldsOf, h1])] at hd
        exact Except.noConfusion hd
    | arr items =>
      rw [validateDashboardData, if_neg (by simp [isObjectLike]),
        if_pos (by simp [fieldsOf, hasKey])] at hd
      exact Except.noConfusion hd
    | null =>
      rw [validateDashboardData, if_pos (by simp [isObjectLike])] at hd
      exact Except.noConfusion hd
    | bool b =>
      rw [validateDashboardData, if_pos (by simp [isObjectLike])] at hd
      exact Except.noConfusion hd
    | num q =>
      rw [validateDashboardData, if_pos (by simp [isObjectLike])] at hd
      exact Except.noConfusion hd
    | str s =>
      rw [validateDashboardData, if_pos (by simp [isObjectLike])] at hd
      exact Except.noConfusion hd

/-- Claim C7: a well-formed DashboardData value serialized to JSON text and
passed through the parse-and-validate path of `loadFromFile` succeeds and
yields a value structurally equal to the original. -/
theorem claim_C7 (v : Json) (h : WellFormedData v) : loadFromFileModel v = .ok v := by
  obtain ⟨fields, rfl, h1, _, _, items, hit⟩ := h
  rw [loadFromFileModel]
  have : jsonRoundTrip (Json.obj fields) = Json.obj fields := rfl
  rw [this]
  exact validate_obj_ok h1 ⟨items, hit⟩

/-- Claim C7 witness: the round-trip theorem applied to a concrete
well-formed bundle. -/
theorem claim_C7_witness :
    WellFormedData (Json.obj [("schema_version", Json.str "aigit-dashboard-1"),
      ("generated_at", Json.str "2024-01-01T00:00:00Z"),
      ("repo_id", Json.str "r"), ("entries", Json.arr [])])
    ∧ loadFromFileModel (Json.obj [("schema_version", Json.str "aigit-dashboard-1"),
      ("generated_at", Json.str "2024-01-01T00:00:00Z"),
      ("repo_id", Json.str "r"), ("entries", Json.arr [])])
      = .ok (Json.obj [("schema_version", Json.str "aigit-dashboard-1"),
      ("generated_at", Json.str "2024-01-01T00:00:00Z"),
      ("repo_id", Json.str "r"), ("entries", Json.arr [])]) :=
  ⟨⟨_, rfl, rfl, rfl, rfl, [], rfl⟩,
    claim_C7 _ ⟨_, rfl, rfl, rfl, rfl, [], rfl⟩⟩

theorem ne_nil_isEmpty_false {l : List α} (h : l ≠ []) : l.isEmpty = false := by
  cases l
  · exact absurd rfl h
  · rfl

theorem head_filter_eq_find (p : α → Bool) (l : List α) :
    (l.filter p).head? = l.find? p := by
  induction l with
  | nil => rfl
  | cons a l ih =>
    cases h : p a <;> simp [List.filter_cons, List.find?_cons, h, ih]

theorem find?_exists_of_mem {p : α → Bool} {l : List α} {e : α}
    (he : e ∈ l) (hp : p e = true) :
    ∃ r, l.find? p = some r ∧ p r = true := by
  cases hf : l.find? p with
  | none => exact absurd hp (by simpa using List.find?_eq_none.mp hf e he)
  | some r =>
    have := List.find?_some hf
    exact ⟨r, rfl, this⟩

/-- Claim C1: `aggregateUsers` returns exactly one row per distinct author
email; on each row `passes` counts that email's "pass" entries, `fails`
counts its other entries (the first entry of an email included, so a
single-entry user has passes+fails = 1), and `avgScore` is the arithmetic
mean of the email's `total_score` values. -/
theorem claim_C1 (parse : String → Option Int) (entries : List DashboardEntry) :
    ((aggregateUsers parse entries).map UserRow.email).Nodup
    ∧ (∀ em, em ∈ (aggregateUsers parse entries).map UserRow.email ↔
        em ∈ entries.map (fun e => e.commit.author_email))
    ∧ ∀ r ∈ aggregateUsers parse entries,
        r.passes = ((emailEntries entries r.email).filter
            (fun e => e.transcript.decision == "pass")).length
        ∧ r.fails = ((emailEntries entries r.email).filter
            (fun e => !(e.transcript.decision == "pass"))).length
        ∧ r.passes + r.fails = (emailEntries entries r.email).length
        ∧ r.avgScore = scoreSum (emailEntries entries r.email)
            / ((emailEntries entries r.email).length : ℚ) := by
  refine ⟨aggregateUsers_emails_nodup parse entries, ?_, ?_⟩
  · intro em
    constructor
    · intro h
      obtain ⟨r, hr, hre⟩ := List.mem_map.mp h
      obtain ⟨em', hne, hrow⟩ := mem_aggregateUsers_iff.mp hr
      have : em = em' := by rw [← hre, hrow, rowSpec_email]
      subst this
      exact emailEntries_ne_nil_iff.mp hne
    · intro h
      have hne := emailEntries_ne_nil_iff.mpr h
      exact List.mem_map.mpr ⟨rowSpec em (emailEntries entries em),
        mem_aggregateUsers_iff.mpr ⟨em, hne, rfl⟩, rfl⟩
  · intro r hr
    obtain ⟨em, hne, hrow⟩ := mem_aggregateUsers_iff.mp hr
    have hre : r.email = em := by rw [hrow, rowSpec_email]
    rw [hre, hrow]
    refine ⟨rfl, rfl, filterSplitLength _ _, ?_⟩
    show (if emailEntries entries em = [] then (0 : ℚ)
      else scoreSum (emailEntries entries em) / ((emailEntries entries em).length : ℚ)) = _
    rw [if_neg hne]

/-- Claim C9: the `name` of a user row comes from the first-encountered
entry of that email in input order, and is never replaced by the
`author_name` of a later entry of the same email. -/
theorem claim_C9 (parse : String → Option Int) (entries : List DashboardEntry) :
    ∀ r ∈ aggregateUsers parse entries,
      ∃ e, entries.find? (fun x => x.commit.author_email == r.email) = some e
        ∧ r.name = e.commit.author_name := by
  intro r hr
  obtain ⟨em, hne, hrow⟩ := mem_aggregateUsers_iff.mp hr
  have hre : r.email = em := by rw [hrow, rowSpec_email]
  obtain ⟨b, bs, hbs⟩ := List.exists_cons_of_ne_nil hne
  have hfind : entries.find? (fun x => x.commit.author_email == em) = some b := by
    have hh := head_filter_eq_find (fun x => x.commit.author_email == em) entries
    rw [emailEntries] at hbs
    rw [← hh, hbs]
    rfl
  refine ⟨b, by rw [hre]; exact hfind, ?_⟩
  rw [hrow, hbs]
  rfl

/-- Claim C5: each aggregated row's `lastSeenIso` is the lexicographically
greatest `author_date_iso` among that email's entries, and the rows are
sorted by `lastSeenIso` descending under the parsed numeric time, with
ties (equal parsed times) broken by email ascending. -/
theorem claim_C5 (parse : String → Option Int) (entries : List DashboardEntry) :
    (∀ r ∈ aggregateUsers parse entries,
      r.lastSeenIso ∈ (emailEntries entries r.email).map (fun e => e.commit.author_date_iso)
      ∧ ∀ d ∈ (emailEntries entries r.email).map (fun e => e.commit.author_date_iso),
          strLt r.lastSeenIso d = false)
    ∧ (aggregateUsers parse entries).Pairwise (fun a b =>
        toMs parse b.lastSeenIso < toMs parse a.lastSeenIso
        ∨ (toMs parse a.lastSeenIso = toMs parse b.lastSeenIso
            ∧ strLt a.email b.email = true)) := by
  constructor
  · intro r hr
    obtain ⟨em, hne, hrow⟩ := mem_aggregateUsers_iff.mp hr
    have hre : r.email = em := by rw [hrow, rowSpec_email]
    obtain ⟨b, bs, hbs⟩ := List.exists_cons_of_ne_nil hne
    have hlast : r.lastSeenIso = lastSeenSpec (b :: bs) := by
      rw [hrow, hbs]
      rfl
    constructor
    · rw [hre, hbs, hlast]
      exact lastSeenSpec_mem b bs
    · intro d hd
      rw [hre, hbs] at hd
      obtain ⟨x, hx, hxd⟩ := List.mem_map.mp hd
      rw [hlast, ← hxd]
      exact lastSeenSpec_ub b bs x hx
  · have hsorted : (aggregateUsers parse entries).Pairwise
        (fun a b => userCmp parse a b ≤ 0) :=
      sortCmp_pairwise (userCmp_trans parse)
        (pairwise_of_forall (userCmp_total parse) _)
    have hnodup : (aggregateUsers parse entries).Pairwise
        (fun a b => a.email ≠ b.email) :=
      List.pairwise_map.mp (aggregateUsers_emails_nodup parse entries)
    refine ((hsorted.and hnodup).imp ?_)
    rintro a b ⟨hle, hne⟩
    rcases (userCmp_le_iff parse a b).mp hle with h | ⟨heq, hba⟩
    · exact Or.inl h
    · refine Or.inr ⟨heq, ?_⟩
      rcases strLt_total hne with h | h
      · exact h
      · rw [h] at hba
        exact Bool.noConfusion hba

/-- Claim C3: when `selectedCommit` is absent or matches no entry of the
selected email, the effective selection produced by `pickSelected` over
`entriesForUser` is an entry of that email with the greatest
`author_date_iso` (the most-recent entry). -/
theorem claim_C3 (entries : List DashboardEntry) (email : String) (sel : Option String)
    (hne : emailEntries entries email ≠ [])
    (hsel : sel = none ∨ ∀ e ∈ emailEntries entries email, sel ≠ some e.commit.sha) :
    ∃ r, pickSelected (entriesForUser entries email) sel = some r
      ∧ r.commit.author_email = email ∧ r ∈ entries
      ∧ ∀ x ∈ entries, x.commit.author_email = email →
          strLt r.commit.author_date_iso x.commit.author_date_iso = false := by
  have hconsr := entriesForUser_ne_nil hne
  obtain ⟨r, t, hrt⟩ := List.exists_cons_of_ne_nil hconsr
  have hsorted := entriesForUser_sorted entries email
  rw [hrt, List.pairwise_cons] at hsorted
  have hpick : pickSelected (entriesForUser entries email) sel = some r := by
    rw [pickSelected.eq_def,
      if_neg (by simp [ne_nil_isEmpty_false hconsr])]
    rcases hsel with rfl | hnomatch
    · rw [hrt]
      rfl
    · cases sel with
      | none =>
        rw [hrt]
        rfl
      | some s =>
        have hfind : (entriesForUser entries email).find?
            (fun e => e.commit.sha == s) = none := by
          rw [List.find?_eq_none]
          intro x hx hbeq
          have hxm : x ∈ emailEntries entries email := by
            rw [entriesForUser_eq, mem_sortCmp] at hx
            exact hx
          exact hnomatch x hxm (by rw [beq_iff_eq.mp hbeq])
        show ((entriesForUser entries email).find? (fun e => e.commit.sha == s)).orElse
            (fun _ => (entriesForUser entries email).head?) = some r
        rw [hfind, hrt]
        rfl
  refine ⟨r, hpick, ?_, ?_, ?_⟩
  · exact (mem_entriesForUser.mp (by rw [hrt]; exact List.mem_cons_self r t)).2
  · exact (mem_entriesForUser.mp (by rw [hrt]; exact List.mem_cons_self r t)).1
  · intro x hx hxe
    have hxm : x ∈ entriesForUser entries email := mem_entriesForUser.mpr ⟨hx, hxe⟩
    rw [hrt, List.mem_cons] at hxm
    rcases hxm with rfl | hxm
    · exact strLt_irrefl _
    · exact (dateDescCmp_le_iff r x).mp (hsorted.1 x hxm)

/-- Claim C10: the drawer's transcript list shows at most 30 entries — the
most recent 30 (every displayed entry's date is at least every
non-displayed entry's date) — while the effective-selection fallback
searches all of the user's entries, so a sha that matches any entry of the
user (displayed or not) is found. -/
theorem claim_C10 (entries : List DashboardEntry) (email : String) (sha : String)
    (e : DashboardEntry) (he : e ∈ entriesForUser entries email)
    (hsha : e.commit.sha = sha) :
    (displayedTranscripts entries email).length ≤ 30
    ∧ (∀ d ∈ displayedTranscripts entries email,
        ∀ x ∈ (entriesForUser entries email).drop 30,
          strLt d.commit.author_date_iso x.commit.author_date_iso = false)
    ∧ ∃ r, pickSelected (entriesForUser entries email) (some sha) = some r
        ∧ r.commit.sha = sha := by
  refine ⟨List.length_take_le 30 _, ?_, ?_⟩
  · have hs := entriesForUser_sorted entries email
    rw [← List.take_append_drop 30 (entriesForUser entries email),
      List.pairwise_append] at hs
    intro d hd x hx
    exact (dateDescCmp_le_iff d x).mp (hs.2.2 d hd x hx)
  · have hnenil : entriesForUser entries email ≠ [] := by
      intro hc
      rw [hc] at he
      exact List.not_mem_nil e he
    obtain ⟨r, hfind, hpr⟩ := @find?_exists_of_mem DashboardEntry
      (fun x => x.commit.sha == sha) (entriesForUser entries email) e he (by simp [hsha])
    refine ⟨r, ?_, beq_iff_eq.mp hpr⟩
    rw [pickSelected.eq_def,
      if_neg (by simp [ne_nil_isEmpty_false hnenil])]
    show ((entriesForUser entries email).find? (fun x => x.commit.sha == sha)).orElse
        (fun _ => (entriesForUser entries email).head?) = some r
    rw [hfind]
    rfl

/-- Claim C6: `timeSeriesAvgScore` maps the entries sorted ascending by
`author_date_iso` to points with x = parsed epoch millis (0 on parse
failure) and y = total_score; with valid, pairwise distinct timestamps
whose string order agrees with their parsed order (ISO-8601 same-zone), the
output x sequence is non-decreasing. -/
theorem claim_C6 (parse : String → Option Int) (entries : List DashboardEntry)
    (hdist : entries.Pairwise
      (fun a b => a.commit.author_date_iso ≠ b.commit.author_date_iso))
    (_hvalid : ∀ e ∈ entries, (parse e.commit.author_date_iso).isSome = true)
    (hmono : ∀ a ∈ entries, ∀ b ∈ entries,
        strLt a.commit.author_date_iso b.commit.author_date_iso = true →
        toMs parse a.commit.author_date_iso ≤ toMs parse b.commit.author_date_iso) :
    ∃ l : List DashboardEntry, l.Perm entries
      ∧ l.Pairwise (fun a b =>
          strLt a.commit.author_date_iso b.commit.author_date_iso = true)
      ∧ timeSeriesAvgScore parse entries
          = l.map (fun e => { x := toMs parse e.commit.author_date_iso,
                              y := e.transcript.score.total_score })
      ∧ (timeSeriesAvgScore parse entries).Pairwise (fun p q => p.x ≤ q.x) := by
  have htot : entries.Pairwise (fun a b => dateAscCmp a b ≤ 0 ∨ dateAscCmp b a ≤ 0) := by
    refine hdist.imp ?_
    intro a b hab
    rw [dateAscCmp_le_iff, dateAscCmp_le_iff]
    exact strLt_total hab
  have hsorted := sortCmp_pairwise dateAscCmp_trans htot
  have hsorted' : (sortCmp dateAscCmp entries).Pairwise (fun a b =>
      strLt a.commit.author_date_iso b.commit.author_date_iso = true) :=
    hsorted.imp (fun h => (dateAscCmp_le_iff _ _).mp h)
  refine ⟨sortCmp dateAscCmp entries, sortCmp_perm _ _, hsorted', rfl, ?_⟩
  rw [timeSeriesAvgScore, List.pairwise_map]
  refine hsorted'.imp_of_mem ?_
  intro a b ha hb hab
  exact hmono a (mem_sortCmp.mp ha) b (mem_sortCmp.mp hb) hab

/-! ## Witnesses -/

/-- Claim C1 witness: the per-row statistics theorem applied to the
concrete sample dataset. -/
theorem claim_C1_witness :
    sampleRow ∈ aggregateUsers sampleParse sampleEntries
    ∧ (sampleRow.passes = ((emailEntries sampleEntries sampleRow.email).filter
          (fun e => e.transcript.decision == "pass")).length
      ∧ sampleRow.fails = ((emailEntries sampleEntries sampleRow.email).filter
          (fun e => !(e.transcript.decision == "pass"))).length
      ∧ sampleRow.passes + sampleRow.fails
          = (emailEntries sampleEntries sampleRow.email).length
      ∧ sampleRow.avgScore = scoreSum (emailEntries sampleEntries sampleRow.email)
          / ((emailEntries sampleEntries sampleRow.email).length : ℚ)) := by
  have hmem : sampleRow ∈ aggregateUsers sampleParse sampleEntries := by
    simp +decide [aggregateUsers, usersMap, stepUser, lookupRow, setRow, updateRow, initRow,
      sortCmp, insertCmp, emailEntries, sampleParse, sampleEntries, entryAliceOld,
      entryAliceNew, sampleRow, strLt, charListLt, strMax]
  exact ⟨hmem, (claim_C1 sampleParse sampleEntries).2.2 sampleRow hmem⟩

/-- Claim C9 witness: on the sample dataset, whose two alice entries carry
different author names, the row's name is the first entry's name. -/
theorem claim_C9_witness :
    sampleRow ∈ aggregateUsers sampleParse sampleEntries
    ∧ (∃ e, sampleEntries.find? (fun x => x.commit.author_email == sampleRow.email) = some e
        ∧ sampleRow.name = e.commit.author_name) := by
  have hmem : sampleRow ∈ aggregateUsers sampleParse sampleEntries := by
    simp +decide [aggregateUsers, usersMap, stepUser, lookupRow, setRow, updateRow, initRow,
      sortCmp, insertCmp, emailEntries, sampleParse, sampleEntries, entryAliceOld,
      entryAliceNew, sampleRow, strLt, charListLt, strMax]
  exact ⟨hmem, claim_C9 sampleParse sampleEntries sampleRow hmem⟩

/-- Claim C5 witness: the last-seen theorem applied to the concrete sample
dataset. -/
theorem claim_C5_witness :
    sampleRow ∈ aggregateUsers sampleParse sampleEntries
    ∧ (sampleRow.lastSeenIso
        ∈ (emailEntries sampleEntries sampleRow.email).map (fun e => e.commit.author_date_iso)
      ∧ ∀ d ∈ (emailEntries sampleEntries sampleRow.email).map
          (fun e => e.commit.author_date_iso),
          strLt sampleRow.lastSeenIso d = false) := by
  have hmem : sampleRow ∈ aggregateUsers sampleParse sampleEntries := by
    simp +decide [aggregateUsers, usersMap, stepUser, lookupRow, setRow, updateRow, initRow,
      sortCmp, insertCmp, emailEntries, sampleParse, sampleEntries, entryAliceOld,
      entryAliceNew, sampleRow, strLt, charListLt, strMax]
  exact ⟨hmem, (claim_C5 sampleParse sampleEntries).1 sampleRow hmem⟩

/-- Claim C3 witness: for the two alice entries with shas "aaa" (older) and
"bbb" (newer) and no selected commit, the effective selection exists, is
maximal by date, and is concretely the "bbb" entry. -/
theorem claim_C3_witness :
    (emailEntries sampleEntries "alice@x.com" ≠ [])
    ∧ (∃ r, pickSelected (entriesForUser sampleEntries "alice@x.com") none = some r
        ∧ r.commit.author_email = "alice@x.com" ∧ r ∈ sampleEntries
        ∧ ∀ x ∈ sampleEntries, x.commit.author_email = "alice@x.com" →
            strLt r.commit.author_date_iso x.commit.author_date_iso = false)
    ∧ (pickSelected (entriesForUser sampleEntries "alice@x.com") none).map
        (fun e => e.commit.sha) = some "bbb" := by
  have hne : emailEntries sampleEntries "alice@x.com" ≠ [] := by decide
  refine ⟨hne, claim_C3 sampleEntries "alice@x.com" none hne (Or.inl rfl), ?_⟩
  simp +decide [pickSelected, entriesForUser, sortCmp, insertCmp, dateDescCmp, emailEntries,
    sampleEntries, entryAliceOld, entryAliceNew, strLt, charListLt]

/-- Claim C10 witness: the display/selection theorem applied to the sample
dataset with the sha of the non-head entry. -/
theorem claim_C10_witness :
    entryAliceOld ∈ entriesForUser sampleEntries "alice@x.com"
    ∧ ((displayedTranscripts sampleEntries "alice@x.com").length ≤ 30
      ∧ (∀ d ∈ displayedTranscripts sampleEntries "alice@x.com",
          ∀ x ∈ (entriesForUser sampleEntries "alice@x.com").drop 30,
            strLt d.commit.author_date_iso x.commit.author_date_iso = false)
      ∧ ∃ r, pickSelected (entriesForUser sampleEntries "alice@x.com") (some "aaa") = some r
          ∧ r.commit.sha = "aaa") := by
  have he : entryAliceOld ∈ entriesForUser sampleEntries "alice@x.com" := by
    simp +decide [entriesForUser, sortCmp, insertCmp, dateDescCmp, emailEntries,
      sampleEntries, entryAliceOld, entryAliceNew, strLt, charListLt]
  exact ⟨he, claim_C10 sampleEntries "alice@x.com" "aaa" entryAliceOld he rfl⟩

/-- Claim C6 witness: the time-series theorem applied to the sample dataset
with distinct valid timestamps under the sample parse function. -/
theorem claim_C6_witness :
    (sampleEntries.Pairwise
      (fun a b => a.commit.author_date_iso ≠ b.commit.author_date_iso))
    ∧ (∀ e ∈ sampleEntries, (sampleParse e.commit.author_date_iso).isSome = true)
    ∧ (∀ a ∈ sampleEntries, ∀ b ∈ sampleEntries,
        strLt a.commit.author_date_iso b.commit.author_date_iso = true →
        toMs sampleParse a.commit.author_date_iso ≤ toMs sampleParse b.commit.author_date_iso)
    ∧ ∃ l : List DashboardEntry, l.Perm sampleEntries
      ∧ l.Pairwise (fun a b =>
          strLt a.commit.author_date_iso b.commit.author_date_iso = true)
      ∧ timeSeriesAvgScore sampleParse sampleEntries
          = l.map (fun e => { x := toMs sampleParse e.commit.author_date_iso,
                              y := e.transcript.score.total_score })
      ∧ (timeSeriesAvgScore sampleParse sampleEntries).Pairwise (fun p q => p.x ≤ q.x) := by
  have h1 : sampleEntries.Pairwise
      (fun a b => a.commit.author_date_iso ≠ b.commit.author_date_iso) := by
    simp +decide [sampleEntries, entryAliceOld, entryAliceNew]
  have h2 : ∀ e ∈ sampleEntries, (sampleParse e.commit.author_date_iso).isSome = true := by
    decide
  have h3 : ∀ a ∈ sampleEntries, ∀ b ∈ sampleEntries,
      strLt a.commit.author_date_iso b.commit.author_date_iso = true →
      toMs sampleParse a.commit.author_date_iso
        ≤ toMs sampleParse b.commit.author_date_iso := by
    decide
  exact ⟨h1, h2, h3, claim_C6 sampleParse sampleEntries h1 h2 h3⟩

/-- Claim C4 witness: the validation characterization applied to a concrete
accepted object and to the spec's malformed example. -/
theorem claim_C4_witness :
    (∃ d, validateDashboardData (Json.obj [("schema_version", Json.str "1"),
        ("entries", Json.arr [])]) = Except.ok d)
    ∧ validateDashboardData (Json.obj [("foo", Json.num 1)])
        = .error "data.json: missing schema_version" :=
  ⟨(claim_C4_amended (Json.obj [("schema_version", Json.str "1"),
      ("entries", Json.arr [])])).1.mpr ⟨_, rfl, rfl, [], rfl⟩,
    (claim_C4_amended (Json.obj [("foo", Json.num 1)])).2.2⟩
